import Mathlib

/-!
Verification of the operator evaluation engine of `findiff` (operators.py).

The embedding models the numeric values of the program exactly, with `ℚ`
standing for Python floats (the arithmetic of the program is carried over
verbatim; rounding is not modelled).  An n-dimensional numpy array is a
shape together with a total data function on integer multi-indices; all
array operations of the program act along one axis with full ranges on the
other axes, and are translated pointwise.  Python exceptions are modelled
by `Except PyErr`; numpy basic slicing (clamping, negative-index
wrap-around) and the broadcasting rule for in-place addition along the
active axis are translated where the program relies on them.
-/

namespace Findiff

/-- Python exception kinds that operators.py can raise: `IndexError` is
raised by `_shift_slice` ("Shift slice out of bounds") and by numpy
integer indexing, `ValueError` by the constructor validation and by a
numpy broadcast mismatch, `ZeroDivisionError` by `1./h**deriv`. -/
inductive PyErr where
  | indexError : PyErr
  | valueError : PyErr
  | zeroDivisionError : PyErr
deriving DecidableEq

/-- A Python `slice(start, stop, 1)` as used throughout `_diff`; the step
is always 1 in the program. -/
structure Slice where
  start : ℤ
  stop : ℤ
deriving DecidableEq

/-- One coefficient record `{"coefficients": [...], "offsets": [...]}` as
returned by the external provider. -/
structure CoefRec where
  coefficients : List ℚ
  offsets : List ℤ

/-- The scheme dictionary returned by `coefficients(order, acc)` with the
three keys `center`, `forward`, `backward`. -/
structure Coefs where
  center : CoefRec
  forward : CoefRec
  backward : CoefRec

/-- An n-dimensional array: a shape plus a total data function on integer
multi-indices (entries outside the shape are phantom values that the
translated operations may write but that no theorem observes). -/
structure NDArray where
  shape : List ℕ
  data : List ℤ → ℚ

/-- Extent of the array along axis `dim` (`y.shape[dim]`). -/
def extent (y : NDArray) (dim : ℕ) : ℕ := y.shape.getD dim 0

/-- `np.zeros_like(y)`. -/
def zerosLike (y : NDArray) : NDArray := ⟨y.shape, fun _ => 0⟩

/-- Elementwise scaling `y * c` (scalar on the right, as in `yd * h_inv`). -/
def scaleArr (a : NDArray) (c : ℚ) : NDArray := ⟨a.shape, fun idx => a.data idx * c⟩

/-- Elementwise sum `u_left + u_right` of same-shaped arrays. -/
def arrAdd (a b : NDArray) : NDArray := ⟨a.shape, fun idx => a.data idx + b.data idx⟩

/-- Python bound normalization for one slice bound on an axis of extent
`n`: a negative bound counts from the end, then the bound is clamped into
`[0, n]` (this is `slice.indices` for step 1). -/
def pyBound (i : ℤ) (n : ℕ) : ℤ := max 0 (min (if i < 0 then i + n else i) n)

/-- Python wrap-around for a single integer index that is known to be in
`[-n, n)`: a negative index counts from the end. -/
def pyWrap (p : ℤ) (n : ℕ) : ℤ := if p < 0 then p + n else p

/-- `PartialDerivative._shift_slice`: shift a slice, raising `IndexError`
when the shifted window leaves `[0, max_index]`. -/
def shift_slice (sl : Slice) (off : ℤ) (maxIndex : ℕ) : Except PyErr Slice :=
  if sl.start + off < 0 ∨ sl.stop + off > (maxIndex : ℤ) then .error .indexError
  else .ok ⟨sl.start + off, sl.stop + off⟩

/-- The list comprehension `[self._shift_slice(ref_slice, offsets[k], npts)
for k in range(len(offsets))]`: first failure aborts. -/
def shiftAll (refS : Slice) (npts : ℕ) : List ℤ → Except PyErr (List Slice)
  | [] => .ok []
  | o :: os => do
    let s ← shift_slice refS o npts
    let rest ← shiftAll refS npts os
    .ok (s :: rest)

/-- The accumulation step of `_apply_to_array` for one weight: if the
weight is within `1e-14` of `1.0` the slice is added unmultiplied,
otherwise it is multiplied by the weight. -/
def mulw (w v : ℚ) : ℚ := if |1 - w| < 1 / 10 ^ 14 then v else w * v

/-- The number of indices a normalized slice selects on an axis of extent
`n` (`len(range(*slice.indices(n)))` for step 1). -/
def bandLen (s : Slice) (n : ℕ) : ℤ := max 0 (pyBound s.stop n - pyBound s.start n)

/-- One statement `yd[ref_multi_slice] += w * y[off_multi_slice]` (or the
unmultiplied variant) of `_apply_to_array`: both slices select a window
along axis `dim` and full ranges elsewhere.  numpy applies Python slice
normalization to both windows and then requires the source window length
to equal the target window length or to be 1 (broadcasting), raising
`ValueError` otherwise; a length-1 source window is read at its single
index for every target index. -/
def addBand (y : NDArray) (refS : Slice) (dim : ℕ) (w : ℚ) (s : Slice) (yd : NDArray) :
    Except PyErr NDArray :=
  if bandLen s (extent y dim) = bandLen refS (extent y dim) ∨
      bandLen s (extent y dim) = 1 then
    .ok ⟨yd.shape, fun idx =>
      if pyBound refS.start (extent y dim) ≤ idx.getD dim 0 ∧
          idx.getD dim 0 < pyBound refS.stop (extent y dim) then
        yd.data idx + mulw w (y.data (idx.set dim
          (if bandLen s (extent y dim) = 1 then pyBound s.start (extent y dim)
           else idx.getD dim 0 - pyBound refS.start (extent y dim) +
             pyBound s.start (extent y dim))))
      else yd.data idx⟩
  else .error .valueError

/-- `PartialDerivative._apply_to_array`: the loop `for w, s in
zip(weights, off_slices)` accumulating bands into `yd` (reads always come
from `y`). -/
def addBands (y : NDArray) (refS : Slice) (dim : ℕ) :
    List (ℚ × Slice) → NDArray → Except PyErr NDArray
  | [], yd => .ok yd
  | (w, s) :: rest, yd => do
    let yd' ← addBand y refS dim w s yd
    addBands y refS dim rest yd'

/-- The reference slice `slice(nbndry, npts - nbndry, 1)` of the center
scheme in `_diff`. -/
def centerRef (b npts : ℕ) : Slice := ⟨(b : ℤ), (npts : ℤ) - (b : ℤ)⟩

/-- The reference slice `slice(0, nbndry, 1)` of the forward scheme. -/
def forwardRef (b npts : ℕ) : Slice := ⟨0, (b : ℤ)⟩

/-- The reference slice `slice(npts - nbndry, npts, 1)` of the backward
scheme. -/
def backwardRef (b npts : ℕ) : Slice := ⟨(npts : ℤ) - (b : ℤ), (npts : ℤ)⟩

/-- The set of reference indices a slice denotes, as written in the
program (`start` inclusive to `stop` exclusive). -/
def sliceRegion (s : Slice) : Finset ℤ := Finset.Ico s.start s.stop

/-- `PartialDerivative._diff`: the uniform-grid stencil algorithm.  The
three schemes are processed in source order center, forward, backward;
each scheme first shifts its reference slice by every offset (checked by
`_shift_slice`), then accumulates its weighted bands; finally the result
is scaled by `h_inv = 1./h**deriv` (a float `ZeroDivisionError` when
`h**deriv` is zero). -/
def diff (y : NDArray) (h : ℚ) (deriv : ℕ) (dim : ℕ) (coefs : Coefs) :
    Except PyErr NDArray :=
  let npts := extent y dim
  let nbndry := coefs.center.coefficients.length / 2
  do
  let offC ← shiftAll (centerRef nbndry npts) npts coefs.center.offsets
  let yd1 ← addBands y (centerRef nbndry npts) dim
    (coefs.center.coefficients.zip offC) (zerosLike y)
  let offF ← shiftAll (forwardRef nbndry npts) npts coefs.forward.offsets
  let yd2 ← addBands y (forwardRef nbndry npts) dim
    (coefs.forward.coefficients.zip offF) yd1
  let offB ← shiftAll (backwardRef nbndry npts) npts coefs.backward.offsets
  let yd3 ← addBands y (backwardRef nbndry npts) dim
    (coefs.backward.coefficients.zip offB) yd2
  if h ^ deriv = 0 then .error .zeroDivisionError
  else .ok (scaleArr yd3 (1 / h ^ deriv))

/-- The inner loop `for off, w in zip(offsets, weights)` of
`_diff_non_uni` at one row `i`: the right-hand side read
`y[..., i + off, ...]` uses numpy integer indexing (raises `IndexError`
outside `[-n, n)`, silently wraps a negative index), then the write index
`i` is checked the same way. -/
def nonUniRow (y : NDArray) (dim i : ℕ) (n : ℕ) :
    List (ℤ × ℚ) → NDArray → Except PyErr NDArray
  | [], yd => .ok yd
  | (off, w) :: rest, yd =>
    if (i : ℤ) + off < -(n : ℤ) ∨ (n : ℤ) ≤ (i : ℤ) + off then .error .indexError
    else if (n : ℤ) ≤ (i : ℤ) then .error .indexError
    else nonUniRow y dim i n rest
      ⟨yd.shape, fun idx =>
        if idx.getD dim 0 = (i : ℤ) then
          yd.data idx + w * y.data (idx.set dim (pyWrap ((i : ℤ) + off) n))
        else yd.data idx⟩

/-- The outer loop `for i, x in enumerate(coords)` of `_diff_non_uni`. -/
def nonUniRows (y : NDArray) (dim n : ℕ) :
    List (ℕ × CoefRec) → NDArray → Except PyErr NDArray
  | [], yd => .ok yd
  | (i, r) :: rest, yd => do
    let yd' ← nonUniRow y dim i n (r.offsets.zip r.coefficients) yd
    nonUniRows y dim n rest yd'

/-- `PartialDerivative._diff_non_uni`: the non-uniform stencil algorithm.
No spacing scaling is applied. -/
def diff_non_uni (y : NDArray) (coords : List ℚ) (dim : ℕ) (coefs : List CoefRec) :
    Except PyErr NDArray :=
  nonUniRows y dim (extent y dim)
    ((List.range coords.length).map (fun i => (i, coefs.getD i ⟨[], []⟩)))
    (zerosLike y)

/-- The grid context `fd` as consumed by `apply` (duck-typed in the
source): uniformity flag, per-axis spacing, per-axis coordinates,
accuracy order. -/
structure Grid where
  is_uniform : Bool
  spac : ℕ → ℚ
  coords : ℕ → List ℚ
  acc : ℕ

/-- The external coefficient providers `coefficients` and
`coefficients_non_uni` (excluded collaborators; the engine only consumes
their output, so they are parameters of the model). -/
structure Providers where
  coefficients : ℕ → ℕ → Coefs
  coefficients_non_uni : ℕ → ℕ → List ℚ → ℕ → CoefRec

/-- The state of a constructed `PartialDerivative`: the ordered
association list `self.derivs` from axis to order (a Python dict built by
insertion, so insertion order is preserved). -/
structure PartialDerivative where
  derivs : List (ℤ × ℤ)
deriving DecidableEq

/-- One iteration of the loop in `PartialDerivative.apply`: dispatch on
grid uniformity; the non-uniform branch first builds the per-index
coefficient list from the provider. -/
def diffAxis (P : Providers) (fd : Grid) (axis order : ℤ) (u : NDArray) :
    Except PyErr NDArray :=
  if fd.is_uniform then
    diff u (fd.spac axis.toNat) order.toNat axis.toNat (P.coefficients order.toNat fd.acc)
  else
    diff_non_uni u (fd.coords axis.toNat) axis.toNat
      ((List.range (fd.coords axis.toNat).length).map
        (fun i => P.coefficients_non_uni order.toNat fd.acc (fd.coords axis.toNat) i))

/-- The loop `for axis, order in self.derivs.items(): u = ...` of
`PartialDerivative.apply`: the output of one axis feeds the next. -/
def applyDerivs (P : Providers) (fd : Grid) :
    List (ℤ × ℤ) → NDArray → Except PyErr NDArray
  | [], u => .ok u
  | (axis, order) :: rest, u => do
    let u' ← diffAxis P fd axis order u
    applyDerivs P fd rest u'

/-- `PartialDerivative.apply(fd, u)`. -/
def PartialDerivative.apply (pd : PartialDerivative) (P : Providers) (fd : Grid)
    (u : NDArray) : Except PyErr NDArray :=
  applyDerivs P fd pd.derivs u

/-- The `value` operand of a `Multiply` node: a plain scalar or an array
of the field's shape (never evaluated against the grid). -/
inductive Value where
  | scal : ℚ → Value
  | arr : NDArray → Value

/-- `self.left * self.right.apply(fd, u)` in `Multiply.apply`: scalar or
elementwise product. -/
def mulValue : Value → NDArray → NDArray
  | .scal c, a => ⟨a.shape, fun idx => c * a.data idx⟩
  | .arr m, a => ⟨a.shape, fun idx => m.data idx * a.data idx⟩

/-- The operator expression tree: `PartialDerivative` leaves and the
`Plus` / `Multiply` combinators. -/
inductive Op where
  | pderiv : PartialDerivative → Op
  | plus : Op → Op → Op
  | mult : Value → Op → Op

/-- `apply(fd, u)` of the three operator variants: `Plus.apply` evaluates
`left.apply(fd, u)` then `right.apply(fd, u)` (both on the same input
field `u`, neither seeing the other's result) and returns their
elementwise sum; `Multiply.apply` multiplies its fixed value onto
`right.apply(fd, u)`. -/
def applyOp (P : Providers) (fd : Grid) : Op → NDArray → Except PyErr NDArray
  | .pderiv pd, u => pd.apply P fd u
  | .plus l r, u => do
    let ul ← applyOp P fd l u
    let ur ← applyOp P fd r u
    .ok (arrAdd ul ur)
  | .mult v op, u => do
    let a ← applyOp P fd op u
    .ok (mulValue v a)

/-- A Python value as it can appear in the `*args` of the
`PartialDerivative` constructor: an int, some non-int scalar, or a
tuple. -/
inductive PyVal where
  | int : ℤ → PyVal
  | float : ℚ → PyVal
  | tup : List PyVal → PyVal

/-- `isinstance(arg, tuple)`. -/
def isTup : PyVal → Bool
  | .tup _ => true
  | _ => false

/-- The element list of a tuple value (meaningful on `tup` only). -/
def tupVals : PyVal → List PyVal
  | .tup vs => vs
  | _ => []

/-- `PartialDerivative._assert_tuple_valid` plus the unpacking
`axis, order = t`: a tuple longer than two raises `ValueError("Too many
arguments in tuple.")`, a shorter tuple fails the unpacking with
`ValueError`, a non-int or negative axis and a non-int or non-positive
order each raise `ValueError`. -/
def assert_tuple_valid : List PyVal → Except PyErr (ℤ × ℤ)
  | t =>
    if t.length > 2 then .error .valueError
    else match t with
      | [a, o] =>
        match a with
        | .int ax =>
          if ax < 0 then .error .valueError
          else match o with
            | .int od => if od ≤ 0 then .error .valueError else .ok (ax, od)
            | _ => .error .valueError
        | _ => .error .valueError
      | _ => .error .valueError

/-- The argument-shape analysis of `_convert_to_valid_tuple_list`: if all
positional arguments are tuples they are taken as the pair list; otherwise
more than two arguments raise `ValueError("Too many arguments...")`, and
the remaining arguments are packed as the single pair
`(args[0], args[1])` — which for fewer than two arguments fails with an
`IndexError` from the tuple indexing, not a `ValueError`. -/
def convert_args (args : List PyVal) : Except PyErr (List (List PyVal)) :=
  if args.all isTup then .ok (args.map tupVals)
  else if args.length > 2 then .error .valueError
  else match args with
    | [a, b] => .ok [[a, b]]
    | _ => .error .indexError

/-- The validation loop `for t in all_tuples: self._assert_tuple_valid(t)`
of `_convert_to_valid_tuple_list` (the first invalid tuple aborts). -/
def validateTuples : List (List PyVal) → Except PyErr (List (ℤ × ℤ))
  | [] => .ok []
  | t :: ts => do
    let p ← assert_tuple_valid t
    let ps ← validateTuples ts
    .ok (p :: ps)

/-- The dict-building loop of `PartialDerivative.__init__`: a repeated
axis raises `ValueError("Derivative along axis %d specified more than
once.")`, otherwise the pair is appended in insertion order. -/
def buildDerivs : List (ℤ × ℤ) → List (ℤ × ℤ) → Except PyErr (List (ℤ × ℤ))
  | acc, [] => .ok acc
  | acc, (a, o) :: rest =>
    if a ∈ acc.map Prod.fst then .error .valueError
    else buildDerivs (acc ++ [(a, o)]) rest

/-- `PartialDerivative.__init__(*args)`: argument-shape conversion,
per-tuple validation, then the duplicate-checked dict build. -/
def initPD (args : List PyVal) : Except PyErr PartialDerivative := do
  let ts ← convert_args args
  let ps ← validateTuples ts
  let ds ← buildDerivs [] ps
  .ok ⟨ds⟩

/-- Reads the data of a successful `apply` result at one multi-index
(`none` when the computation raised). -/
def getData (e : Except PyErr NDArray) (idx : List ℤ) : Option ℚ :=
  match e with
  | .ok a => some (a.data idx)
  | .error _ => none

/-- The shape of a successful `apply` result (`none` when the computation
raised). -/
def getShape (e : Except PyErr NDArray) : Option (List ℕ) :=
  match e with
  | .ok a => some a.shape
  | .error _ => none

/-- The exception of a failed computation (`none` on success). -/
def errOf (e : Except PyErr NDArray) : Option PyErr :=
  match e with
  | .ok _ => none
  | .error x => some x

theorem ok_bind {α β : Type} (a : α) (f : α → Except PyErr β) :
    ((Except.ok a : Except PyErr α) >>= f) = f a := rfl

theorem error_bind {α β : Type} (e : PyErr) (f : α → Except PyErr β) :
    ((Except.error e : Except PyErr α) >>= f) = Except.error e := rfl

theorem bind_pure_self {α : Type} (m : Except PyErr α) :
    (m >>= fun a => Except.ok a) = m := by
  cases m <;> rfl

/-- A provider stub used as a concrete instantiation in witnesses. -/
def trivialProviders : Providers :=
  ⟨fun _ _ => ⟨⟨[], []⟩, ⟨[], []⟩, ⟨[], []⟩⟩, fun _ _ _ _ => ⟨[], []⟩⟩

/-- A concrete uniform grid used in witnesses. -/
def gridW : Grid := ⟨true, fun _ => 1, fun _ => [], 2⟩

/-- A concrete 1-D field of two points used in witnesses. -/
def fieldW : NDArray := ⟨[2], fun idx => idx.getD 0 0 + 5⟩

/-- C10: `PartialDerivative()` with the empty argument list constructs the
identity operator (empty `derivs`), and applying it to any grid context
and field returns the input field unchanged. -/
theorem claim10_identity :
    initPD [] = .ok ⟨[]⟩ ∧
      ∀ (P : Providers) (fd : Grid) (u : NDArray),
        PartialDerivative.apply ⟨[]⟩ P fd u = .ok u := by
  exact ⟨rfl, fun _ _ _ => rfl⟩

/-- C3: `Plus(A,B).apply(g,u)` evaluates both operands on the same input
field `u` and, when both succeed, returns exactly the elementwise sum of
the two results (`arrAdd`, whose entries are the pointwise sums). -/
theorem claim3_plus_sum (P : Providers) (fd : Grid) (A B : Op) (u a b : NDArray)
    (hA : applyOp P fd A u = .ok a) (hB : applyOp P fd B u = .ok b) :
    applyOp P fd (.plus A B) u = .ok (arrAdd a b) ∧
      ∀ idx, (arrAdd a b).data idx = a.data idx + b.data idx := by
  refine ⟨?_, fun _ => rfl⟩
  show (do
    let ul ← applyOp P fd A u
    let ur ← applyOp P fd B u
    Except.ok (arrAdd ul ur)) = .ok (arrAdd a b)
  rw [hA, ok_bind, hB, ok_bind]

/-- Witness for C3 at a concrete input: two identity operators applied to
a concrete two-point field. -/
theorem claim3_witness :
    applyOp trivialProviders gridW (.pderiv ⟨[]⟩) fieldW = .ok fieldW ∧
      applyOp trivialProviders gridW (.plus (.pderiv ⟨[]⟩) (.pderiv ⟨[]⟩)) fieldW =
        .ok (arrAdd fieldW fieldW) := by
  exact ⟨rfl, (claim3_plus_sum trivialProviders gridW (.pderiv ⟨[]⟩) (.pderiv ⟨[]⟩)
    fieldW fieldW fieldW rfl rfl).1⟩

/-- C4: `Multiply(c,A).apply(g,u)` returns, when the operand succeeds with
result `a`, exactly `mulValue c a`, whose entries are `c` times the
entries of `a` (scalar case) resp. the elementwise product with the
multiplier array; the multiplier is a fixed value, never evaluated
against the grid (it has no `apply` of its own in the model). -/
theorem claim4_multiply (P : Providers) (fd : Grid) (v : Value) (A : Op) (u a : NDArray)
    (h : applyOp P fd A u = .ok a) :
    applyOp P fd (.mult v A) u = .ok (mulValue v a) ∧
      (∀ c, v = .scal c → ∀ idx, (mulValue v a).data idx = c * a.data idx) ∧
      (∀ m, v = .arr m → ∀ idx, (mulValue v a).data idx = m.data idx * a.data idx) := by
  refine ⟨?_, ?_, ?_⟩
  · show (do
      let x ← applyOp P fd A u
      Except.ok (mulValue v x)) = .ok (mulValue v a)
    rw [h, ok_bind]
  · rintro c rfl _; rfl
  · rintro m rfl _; rfl

/-- Witness for C4 at a concrete input: the scalar 2 times the identity
operator on a concrete field. -/
theorem claim4_witness :
    applyOp trivialProviders gridW (.pderiv ⟨[]⟩) fieldW = .ok fieldW ∧
      applyOp trivialProviders gridW (.mult (.scal 2) (.pderiv ⟨[]⟩)) fieldW =
        .ok (mulValue (.scal 2) fieldW) := by
  exact ⟨rfl, (claim4_multiply trivialProviders gridW (.scal 2) (.pderiv ⟨[]⟩)
    fieldW fieldW rfl).1⟩

/-- Encoding of an `(axis, order)` pair as the Python tuple passed to the
constructor. -/
def encodePair (p : ℤ × ℤ) : PyVal := .tup [.int p.1, .int p.2]

/-- Sequential composition of the single-axis partial derivatives, one
pair at a time in list order: the output field of one axis is the input
field of the next. -/
def applySeq (P : Providers) (fd : Grid) : List (ℤ × ℤ) → NDArray → Except PyErr NDArray
  | [], u => .ok u
  | p :: ps, u => do
    let v ← PartialDerivative.apply ⟨[p]⟩ P fd u
    applySeq P fd ps v

theorem buildDerivs_ok_eq (l acc ds : List (ℤ × ℤ)) (h : buildDerivs acc l = .ok ds) :
    ds = acc ++ l := by
  induction l generalizing acc with
  | nil =>
    simp only [buildDerivs] at h
    cases h
    simp
  | cons p rest ih =>
    obtain ⟨a, o⟩ := p
    simp only [buildDerivs] at h
    split at h
    · cases h
    · simpa using ih (acc ++ [(a, o)]) h

theorem validateTuples_encode_eq (pairs : List (ℤ × ℤ)) (ps : List (ℤ × ℤ))
    (h : validateTuples ((pairs.map encodePair).map tupVals) = .ok ps) : ps = pairs := by
  induction pairs generalizing ps with
  | nil =>
    simp only [List.map_nil, validateTuples] at h
    cases h
    rfl
  | cons p rest ih =>
    obtain ⟨a, o⟩ := p
    simp only [List.map_cons, validateTuples, encodePair, tupVals] at h
    by_cases ha : a < 0
    · rw [show assert_tuple_valid [PyVal.int a, PyVal.int o] = .error .valueError by
        simp [assert_tuple_valid, ha], error_bind] at h
      cases h
    · by_cases ho : o ≤ 0
      · rw [show assert_tuple_valid [PyVal.int a, PyVal.int o] = .error .valueError by
          simp [assert_tuple_valid, ha, ho], error_bind] at h
        cases h
      · rw [show assert_tuple_valid [PyVal.int a, PyVal.int o] = .ok (a, o) by
          simp [assert_tuple_valid, ha, ho], ok_bind] at h
        cases hrest : validateTuples (rest.map (fun p => tupVals (encodePair p))) with
        | error e =>
          rw [show (rest.map encodePair).map tupVals =
              rest.map (fun p => tupVals (encodePair p)) by simp] at h
          rw [hrest, error_bind] at h
          cases h
        | ok qs =>
          rw [show (rest.map encodePair).map tupVals =
              rest.map (fun p => tupVals (encodePair p)) by simp] at h
          rw [hrest, ok_bind] at h
          cases h
          have := ih qs (by simpa using hrest)
          rw [this]

theorem applyDerivs_eq_applySeq (P : Providers) (fd : Grid) (l : List (ℤ × ℤ))
    (u : NDArray) : applyDerivs P fd l u = applySeq P fd l u := by
  induction l generalizing u with
  | nil => rfl
  | cons p rest ih =>
    obtain ⟨a, o⟩ := p
    show (do
      let u' ← diffAxis P fd a o u
      applyDerivs P fd rest u') = applySeq P fd ((a, o) :: rest) u
    cases hm : diffAxis P fd a o u with
    | error e =>
      rw [error_bind]
      show _ = (do
        let v ← PartialDerivative.apply ⟨[(a, o)]⟩ P fd u
        applySeq P fd rest v)
      rw [show PartialDerivative.apply ⟨[(a, o)]⟩ P fd u =
        (diffAxis P fd a o u >>= fun u' => .ok u') from rfl, hm, error_bind, error_bind]
    | ok u' =>
      rw [ok_bind, ih]
      show _ = (do
        let v ← PartialDerivative.apply ⟨[(a, o)]⟩ P fd u
        applySeq P fd rest v)
      rw [show PartialDerivative.apply ⟨[(a, o)]⟩ P fd u =
        (diffAxis P fd a o u >>= fun x => .ok x) from rfl, hm, ok_bind, ok_bind]

/-- C2: a `PartialDerivative` successfully built from the pairs
`(a1,o1),...,(ak,ok)` stores exactly those pairs in insertion order, and
`apply` equals the sequential composition of the corresponding
single-axis partial derivatives in that order, the output field of each
axis feeding the next (the model is a pure function, so the result is
deterministic). -/
theorem claim2_sequential (pairs : List (ℤ × ℤ)) (pd : PartialDerivative)
    (h : initPD (pairs.map encodePair) = .ok pd) (P : Providers) (fd : Grid)
    (u : NDArray) :
    pd.derivs = pairs ∧ pd.apply P fd u = applySeq P fd pairs u := by
  have hall : (pairs.map encodePair).all isTup = true := by
    simp only [List.all_eq_true]
    intro x hx
    obtain ⟨p, _, rfl⟩ := List.mem_map.mp hx
    rfl
  simp only [initPD, convert_args, hall, if_pos, ok_bind] at h
  cases hv : validateTuples ((pairs.map encodePair).map tupVals) with
  | error e => rw [hv, error_bind] at h; cases h
  | ok ps =>
    rw [hv, ok_bind] at h
    cases hb : buildDerivs [] ps with
    | error e => rw [hb, error_bind] at h; cases h
    | ok ds =>
      rw [hb, ok_bind] at h
      cases h
      have hps : ps = pairs := validateTuples_encode_eq pairs ps hv
      have hds : ds = ps := by simpa using buildDerivs_ok_eq ps [] ds hb
      subst hps
      subst hds
      exact ⟨rfl, applyDerivs_eq_applySeq P fd ds u⟩

/-- Witness for C2 at a concrete input: the pair list `[(0,1), (1,2)]`. -/
theorem claim2_witness :
    PartialDerivative.derivs ⟨[(0, 1), (1, 2)]⟩ = [(0, 1), (1, 2)] ∧
      PartialDerivative.apply ⟨[(0, 1), (1, 2)]⟩ trivialProviders gridW fieldW =
        applySeq trivialProviders gridW [(0, 1), (1, 2)] fieldW := by
  exact claim2_sequential [(0, 1), (1, 2)] ⟨[(0, 1), (1, 2)]⟩ rfl
    trivialProviders gridW fieldW

theorem addBand_shape (y : NDArray) (refS : Slice) (dim : ℕ) (w : ℚ) (s : Slice)
    (yd a : NDArray) (h : addBand y refS dim w s yd = .ok a) : a.shape = yd.shape := by
  simp only [addBand] at h
  split at h
  · cases h; rfl
  · cases h

theorem addBands_shape (y : NDArray) (refS : Slice) (dim : ℕ)
    (l : List (ℚ × Slice)) (yd a : NDArray) (h : addBands y refS dim l yd = .ok a) :
    a.shape = yd.shape := by
  induction l generalizing yd with
  | nil => simp only [addBands] at h; cases h; rfl
  | cons p rest ih =>
    obtain ⟨w, s⟩ := p
    simp only [addBands] at h
    cases hb : addBand y refS dim w s yd with
    | error e => rw [hb, error_bind] at h; cases h
    | ok yd' =>
      rw [hb, ok_bind] at h
      rw [ih yd' h, addBand_shape y refS dim w s yd yd' hb]

theorem diff_shape (y : NDArray) (h : ℚ) (deriv dim : ℕ) (coefs : Coefs) (a : NDArray)
    (hd : diff y h deriv dim coefs = .ok a) : a.shape = y.shape := by
  simp only [diff] at hd
  cases h1 : shiftAll (centerRef (coefs.center.coefficients.length / 2) (extent y dim))
      (extent y dim) coefs.center.offsets with
  | error e => rw [h1, error_bind] at hd; cases hd
  | ok offC =>
    rw [h1, ok_bind] at hd
    cases h2 : addBands y (centerRef (coefs.center.coefficients.length / 2) (extent y dim))
        dim (coefs.center.coefficients.zip offC) (zerosLike y) with
    | error e => rw [h2, error_bind] at hd; cases hd
    | ok yd1 =>
      rw [h2, ok_bind] at hd
      cases h3 : shiftAll (forwardRef (coefs.center.coefficients.length / 2) (extent y dim))
          (extent y dim) coefs.forward.offsets with
      | error e => rw [h3, error_bind] at hd; cases hd
      | ok offF =>
        rw [h3, ok_bind] at hd
        cases h4 : addBands y (forwardRef (coefs.center.coefficients.length / 2)
            (extent y dim)) dim (coefs.forward.coefficients.zip offF) yd1 with
        | error e => rw [h4, error_bind] at hd; cases hd
        | ok yd2 =>
          rw [h4, ok_bind] at hd
          cases h5 : shiftAll (backwardRef (coefs.center.coefficients.length / 2)
              (extent y dim)) (extent y dim) coefs.backward.offsets with
          | error e => rw [h5, error_bind] at hd; cases hd
          | ok offB =>
            rw [h5, ok_bind] at hd
            cases h6 : addBands y (backwardRef (coefs.center.coefficients.length / 2)
                (extent y dim)) dim (coefs.backward.coefficients.zip offB) yd2 with
            | error e => rw [h6, error_bind] at hd; cases hd
            | ok yd3 =>
              rw [h6, ok_bind] at hd
              split at hd
              · cases hd
              · cases hd
                have e3 := addBands_shape _ _ _ _ _ _ h6
                have e2 := addBands_shape _ _ _ _ _ _ h4
                have e1 := addBands_shape _ _ _ _ _ _ h2
                simp only [scaleArr, zerosLike] at *
                rw [e3, e2, e1]

theorem nonUniRow_shape (y : NDArray) (dim i n : ℕ) (l : List (ℤ × ℚ)) (yd a : NDArray)
    (h : nonUniRow y dim i n l yd = .ok a) : a.shape = yd.shape := by
  induction l generalizing yd with
  | nil => simp only [nonUniRow] at h; cases h; rfl
  | cons q rest ih =>
    obtain ⟨off, w⟩ := q
    simp only [nonUniRow] at h
    split at h
    · cases h
    · split at h
      · cases h
      · have h2 := ih _ h
        exact h2

theorem nonUniRows_shape (y : NDArray) (dim n : ℕ) (l : List (ℕ × CoefRec))
    (yd a : NDArray) (h : nonUniRows y dim n l yd = .ok a) : a.shape = yd.shape := by
  induction l generalizing yd with
  | nil => simp only [nonUniRows] at h; cases h; rfl
  | cons q rest ih =>
    obtain ⟨i, r⟩ := q
    simp only [nonUniRows] at h
    cases hr : nonUniRow y dim i n (r.offsets.zip r.coefficients) yd with
    | error e => rw [hr, error_bind] at h; cases h
    | ok yd' =>
      rw [hr, ok_bind] at h
      rw [ih yd' h, nonUniRow_shape _ _ _ _ _ _ _ hr]

theorem diff_non_uni_shape (y : NDArray) (coords : List ℚ) (dim : ℕ)
    (coefs : List CoefRec) (a : NDArray) (h : diff_non_uni y coords dim coefs = .ok a) :
    a.shape = y.shape := by
  unfold diff_non_uni at h
  have h2 := nonUniRows_shape _ _ _ _ _ _ h
  exact h2

theorem diffAxis_shape (P : Providers) (fd : Grid) (axis order : ℤ) (u a : NDArray)
    (h : diffAxis P fd axis order u = .ok a) : a.shape = u.shape := by
  unfold diffAxis at h
  split at h
  · exact diff_shape _ _ _ _ _ _ h
  · exact diff_non_uni_shape _ _ _ _ _ h

theorem applyDerivs_shape (P : Providers) (fd : Grid) (l : List (ℤ × ℤ))
    (u a : NDArray) (h : applyDerivs P fd l u = .ok a) : a.shape = u.shape := by
  induction l generalizing u with
  | nil => simp only [applyDerivs] at h; cases h; rfl
  | cons p rest ih =>
    obtain ⟨axis, order⟩ := p
    simp only [applyDerivs] at h
    cases hs : diffAxis P fd axis order u with
    | error e => rw [hs, error_bind] at h; cases h
    | ok u' =>
      rw [hs, ok_bind] at h
      rw [ih u' h, diffAxis_shape _ _ _ _ _ _ hs]

/-- Counterexample to C9 as stated: a `PartialDerivative` with empty
`derivs` applied to a concrete field returns the input array itself, not
a new array — in the source, `apply` runs its loop zero times and
`return u` hands back the very input array object (no `zeros_like`
allocation happens on this path); the pure model renders this as the
result being the input term itself. -/
theorem claim9_counterexample :
    PartialDerivative.apply ⟨[]⟩ trivialProviders gridW fieldW = .ok fieldW := rfl

/-- C9 amended: evaluation is a pure function of its inputs in the model
(no array and no grid context is ever mutated), and for every operator
variant, grid context and field, a successful `apply` returns an array
whose shape equals the input field's shape; the result is not always a
new array — a `PartialDerivative` with no axes returns the input array
itself. -/
theorem claim9_shape (P : Providers) (fd : Grid) (op : Op) (u r : NDArray)
    (h : applyOp P fd op u = .ok r) : r.shape = u.shape := by
  induction op generalizing u r with
  | pderiv pd => exact applyDerivs_shape _ _ _ _ _ h
  | plus l rr ihl ihr =>
    simp only [applyOp] at h
    cases h1 : applyOp P fd l u with
    | error e => rw [h1, error_bind] at h; cases h
    | ok ul =>
      rw [h1, ok_bind] at h
      cases h2 : applyOp P fd rr u with
      | error e => rw [h2, error_bind] at h; cases h
      | ok ur =>
        rw [h2, ok_bind] at h
        cases h
        simpa [arrAdd] using ihl u ul h1
  | mult v op ih =>
    simp only [applyOp] at h
    cases h1 : applyOp P fd op u with
    | error e => rw [h1, error_bind] at h; cases h
    | ok a =>
      rw [h1, ok_bind] at h
      cases h
      cases v with
      | scal c => simpa [mulValue] using ih u a h1
      | arr m => simpa [mulValue] using ih u a h1

/-- Witness for C9 at a concrete input: the identity operator on a
concrete two-point field. -/
theorem claim9_witness :
    applyOp trivialProviders gridW (.pderiv ⟨[]⟩) fieldW = .ok fieldW ∧
      fieldW.shape = fieldW.shape := by
  exact ⟨rfl, claim9_shape trivialProviders gridW (.pderiv ⟨[]⟩) fieldW fieldW rfl⟩

/-- Counterexample to C8 as stated: with axis extent `npts = 1` and
half-width `b = 1` (a three-point center stencil on a one-point axis),
the leading region `[0, 1)` and the trailing region `[1-1, 1) = [0, 1)`
both contain index 0, so the three regions are not pairwise disjoint. -/
theorem claim8_counterexample :
    (0 : ℤ) ∈ sliceRegion (forwardRef 1 1) ∧ (0 : ℤ) ∈ sliceRegion (backwardRef 1 1) ∧
      ¬ Disjoint (sliceRegion (forwardRef 1 1)) (sliceRegion (backwardRef 1 1)) := by
  have h0 : (0 : ℤ) ∈ sliceRegion (forwardRef 1 1) := by decide
  have h1 : (0 : ℤ) ∈ sliceRegion (backwardRef 1 1) := by decide
  exact ⟨h0, h1, fun hd => Finset.disjoint_left.mp hd h0 h1⟩

/-- C8 amended: whenever `2*b ≤ npts`, the leading `[0, b)`, interior
`[b, npts-b)` and trailing `[npts-b, npts)` reference regions of `_diff`
are pairwise disjoint and their union is exactly `[0, npts)`; when
`2*b > npts` the leading and trailing regions overlap. -/
theorem claim8_partition (b npts : ℕ) (hb : 2 * b ≤ npts) :
    (Disjoint (sliceRegion (forwardRef b npts)) (sliceRegion (centerRef b npts)) ∧
      Disjoint (sliceRegion (centerRef b npts)) (sliceRegion (backwardRef b npts)) ∧
      Disjoint (sliceRegion (forwardRef b npts)) (sliceRegion (backwardRef b npts))) ∧
    sliceRegion (forwardRef b npts) ∪ sliceRegion (centerRef b npts) ∪
        sliceRegion (backwardRef b npts) = Finset.Ico (0 : ℤ) (npts : ℤ) := by
  refine ⟨⟨?_, ?_, ?_⟩, ?_⟩
  · refine Finset.disjoint_left.mpr fun x hx hx' => ?_
    simp only [sliceRegion, forwardRef, centerRef, Finset.mem_Ico] at hx hx'
    omega
  · refine Finset.disjoint_left.mpr fun x hx hx' => ?_
    simp only [sliceRegion, centerRef, backwardRef, Finset.mem_Ico] at hx hx'
    omega
  · refine Finset.disjoint_left.mpr fun x hx hx' => ?_
    simp only [sliceRegion, forwardRef, backwardRef, Finset.mem_Ico] at hx hx'
    omega
  · ext x
    simp only [sliceRegion, forwardRef, centerRef, backwardRef, Finset.mem_union,
      Finset.mem_Ico]
    omega

/-- Witness for C8 amended at a concrete input: `b = 1`, `npts = 4`. -/
theorem claim8_witness :
    2 * 1 ≤ 4 ∧
      ((Disjoint (sliceRegion (forwardRef 1 4)) (sliceRegion (centerRef 1 4)) ∧
        Disjoint (sliceRegion (centerRef 1 4)) (sliceRegion (backwardRef 1 4)) ∧
        Disjoint (sliceRegion (forwardRef 1 4)) (sliceRegion (backwardRef 1 4))) ∧
      sliceRegion (forwardRef 1 4) ∪ sliceRegion (centerRef 1 4) ∪
          sliceRegion (backwardRef 1 4) = Finset.Ico (0 : ℤ) ((4 : ℕ) : ℤ)) := by
  exact ⟨by decide, claim8_partition 1 4 (by decide)⟩

/-- Validity of one `(axis, order)` pair, following the spec's words: a
pair of exactly two values, a non-negative integer axis and a positive
integer order. -/
def tupleOKb (t : List PyVal) : Bool :=
  decide (t.length = 2) &&
  (match t.getD 0 (.tup []) with | .int a => decide (0 ≤ a) | _ => false) &&
  (match t.getD 1 (.tup []) with | .int o => decide (0 < o) | _ => false)

/-- The `(axis, order)` integers of a pair that passed `tupleOKb`. -/
def pairOf (t : List PyVal) : ℤ × ℤ :=
  (match t.getD 0 (.tup []) with | .int a => a | _ => 0,
   match t.getD 1 (.tup []) with | .int o => o | _ => 0)

/-- The axes named by a list of pairs (following the spec's phrase "an
axis repeated across the pairs"). -/
def axesOf (ts : List (List PyVal)) : List ℤ :=
  ts.filterMap fun t => match t.getD 0 (.tup []) with | .int a => some a | _ => none

/-- Modelled from the spec: the enumeration of invalid argument lists
that raise `ConfigurationError` — a repeated axis, a non-integer or
negative axis, a non-positive or non-integer order, a pair of the wrong
length, or more than two positional values that are not already pairs
(the two-positional-value shorthand counts as the single pair it
denotes). -/
def configInvalid (args : List PyVal) : Prop :=
  if args.all isTup then
    (∃ t ∈ args.map tupVals, tupleOKb t = false) ∨ ¬ (axesOf (args.map tupVals)).Nodup
  else if args.length = 2 then tupleOKb args = false
  else 2 < args.length

theorem tupleOKb_pair (ax od : ℤ) :
    tupleOKb [PyVal.int ax, PyVal.int od] = (decide (0 ≤ ax) && decide (0 < od)) := by
  simp only [tupleOKb, List.length_cons, List.length_nil, List.getD_cons_zero,
    List.getD_cons_succ]
  simp

theorem assert_eq_ok (t : List PyVal) (h : tupleOKb t = true) :
    assert_tuple_valid t = .ok (pairOf t) := by
  match t with
  | [] => simp [tupleOKb] at h
  | [a] => simp [tupleOKb, List.getD_cons_zero, List.getD_cons_succ] at h
  | a :: o :: c :: rest =>
    simp only [tupleOKb, List.length_cons, Bool.and_eq_true, decide_eq_true_eq] at h
    omega
  | [a, o] =>
    cases a with
    | int ax =>
      cases o with
      | int od =>
        rw [tupleOKb_pair, Bool.and_eq_true, decide_eq_true_eq, decide_eq_true_eq] at h
        simp only [assert_tuple_valid, List.length_cons, List.length_nil]
        rw [if_neg (by omega)]
        rw [if_neg (by omega : ¬ ax < 0), if_neg (by omega : ¬ od ≤ 0)]
        simp only [pairOf, List.getD_cons_zero, List.getD_cons_succ]
      | float q => simp [tupleOKb, List.getD_cons_zero, List.getD_cons_succ] at h
      | tup vs => simp [tupleOKb, List.getD_cons_zero, List.getD_cons_succ] at h
    | float q => simp [tupleOKb, List.getD_cons_zero] at h
    | tup vs => simp [tupleOKb, List.getD_cons_zero] at h

theorem assert_eq_err (t : List PyVal) (h : tupleOKb t = false) :
    assert_tuple_valid t = .error .valueError := by
  match t with
  | [] => rfl
  | [a] => rfl
  | a :: o :: c :: rest =>
    simp only [assert_tuple_valid, List.length_cons]
    rw [if_pos (by omega)]
  | [a, o] =>
    have hlen : ¬ ([a, o].length > 2) := by simp
    cases a with
    | int ax =>
      cases o with
      | int od =>
        rw [tupleOKb_pair, Bool.and_eq_false_iff, decide_eq_false_iff_not,
          decide_eq_false_iff_not] at h
        simp only [assert_tuple_valid, List.length_cons, List.length_nil]
        rw [if_neg (by omega)]
        by_cases hx : ax < 0
        · rw [if_pos hx]
        · have hod : od ≤ 0 := by
            rcases h with h | h
            · omega
            · omega
          rw [if_neg hx, if_pos hod]
      | float q =>
        simp only [assert_tuple_valid, List.length_cons, List.length_nil]
        rw [if_neg (by omega)]
        by_cases hx : ax < 0
        · rw [if_pos hx]
        · rw [if_neg hx]
      | tup vs =>
        simp only [assert_tuple_valid, List.length_cons, List.length_nil]
        rw [if_neg (by omega)]
        by_cases hx : ax < 0
        · rw [if_pos hx]
        · rw [if_neg hx]
    | float q => rfl
    | tup vs => rfl

theorem validateTuples_ok (ts : List (List PyVal)) (h : ∀ t ∈ ts, tupleOKb t = true) :
    validateTuples ts = .ok (ts.map pairOf) := by
  induction ts with
  | nil => rfl
  | cons t rest ih =>
    simp only [validateTuples]
    rw [assert_eq_ok t (h t (by simp)), ok_bind, ih (fun x hx => h x (by simp [hx])),
      ok_bind, List.map_cons]

theorem validateTuples_err (ts : List (List PyVal))
    (h : ∃ t ∈ ts, tupleOKb t = false) : validateTuples ts = .error .valueError := by
  induction ts with
  | nil => simp at h
  | cons t rest ih =>
    simp only [validateTuples]
    by_cases ht : tupleOKb t = false
    · rw [assert_eq_err t ht, error_bind]
    · have ht' : tupleOKb t = true := by
        cases hb : tupleOKb t
        · exact absurd hb ht
        · rfl
      rw [assert_eq_ok t ht', ok_bind]
      have hrest : ∃ x ∈ rest, tupleOKb x = false := by
        obtain ⟨x, hx, hxf⟩ := h
        rcases List.mem_cons.mp hx with rfl | hx'
        · exact absurd hxf ht
        · exact ⟨x, hx', hxf⟩
      rw [ih hrest, error_bind]

theorem axesOf_eq (ts : List (List PyVal)) (h : ∀ t ∈ ts, tupleOKb t = true) :
    axesOf ts = (ts.map pairOf).map Prod.fst := by
  induction ts with
  | nil => rfl
  | cons t rest ih =>
    have ht := h t (by simp)
    simp only [tupleOKb, Bool.and_eq_true] at ht
    cases hm : t.getD 0 (.tup []) with
    | int a =>
      simp only [axesOf, List.filterMap_cons, hm, List.map_cons]
      rw [show (pairOf t).1 = a by simp only [pairOf, hm]]
      exact congrArg (a :: ·) (ih fun x hx => h x (by simp [hx]))
    | float q => rw [hm] at ht; simp at ht
    | tup vs => rw [hm] at ht; simp at ht

theorem buildDerivs_okOf (l acc : List (ℤ × ℤ)) (h : ((acc ++ l).map Prod.fst).Nodup) :
    buildDerivs acc l = .ok (acc ++ l) := by
  induction l generalizing acc with
  | nil => simp [buildDerivs]
  | cons p rest ih =>
    obtain ⟨a, o⟩ := p
    simp only [buildDerivs]
    have hnotin : a ∉ acc.map Prod.fst := by
      intro hmem
      rw [List.map_append] at h
      have := (List.nodup_append.mp h).2.2
      exact this hmem (by simp)
    rw [if_neg hnotin]
    have heq : (acc ++ [(a, o)]) ++ rest = acc ++ (a, o) :: rest := by simp
    rw [show buildDerivs (acc ++ [(a, o)]) rest = .ok ((acc ++ [(a, o)]) ++ rest) from
      ih (acc ++ [(a, o)]) (by rw [heq]; exact h), heq]

theorem buildDerivs_errOf (l acc : List (ℤ × ℤ)) (hacc : (acc.map Prod.fst).Nodup)
    (h : ¬ ((acc ++ l).map Prod.fst).Nodup) : buildDerivs acc l = .error .valueError := by
  induction l generalizing acc with
  | nil => simp only [List.append_nil] at h; exact absurd hacc h
  | cons p rest ih =>
    obtain ⟨a, o⟩ := p
    simp only [buildDerivs]
    by_cases hmem : a ∈ acc.map Prod.fst
    · rw [if_pos hmem]
    · rw [if_neg hmem]
      refine ih (acc ++ [(a, o)]) ?_ ?_
      · rw [List.map_append, List.nodup_append]
        refine ⟨hacc, by simp, ?_⟩
        intro x hx hx'
        simp only [List.map_cons, List.map_nil, List.mem_singleton] at hx'
        subst hx'
        exact hmem hx
      · intro hcon
        exact h (by simpa using hcon)

/-- Counterexample to C5 as stated: the argument list `(3)` — a single
positional value that is not a pair — is not in the claim's enumeration
of invalid lists, yet the constructor does not build: indexing
`args[1]` fails with `IndexError` (not the `ValueError` that realizes
`ConfigurationError`). -/
theorem claim5_counterexample : initPD [PyVal.int 3] = .error .indexError := rfl

/-- C5 amended: construction raises `ConfigurationError` (`ValueError`)
iff the argument list is invalid per the enumeration extended with pairs
of the wrong length: a repeated axis, a non-integer or negative axis, a
non-positive or non-integer order, a pair whose length is not two, or
more than two positional non-pair values; a single positional non-pair
value instead fails with `IndexError`; every other argument list
constructs without error. -/
theorem claim5_config_errors (args : List PyVal) :
    (initPD args = .error .valueError ↔ configInvalid args) ∧
    (initPD args = .error .indexError ↔ args.all isTup = false ∧ args.length = 1) := by
  by_cases hall : args.all isTup = true
  · have hconv : convert_args args = .ok (args.map tupVals) := by
      unfold convert_args
      rw [hall]
      simp
    have hcfg : configInvalid args ↔
        ((∃ t ∈ args.map tupVals, tupleOKb t = false) ∨
          ¬ (axesOf (args.map tupVals)).Nodup) := by
      unfold configInvalid
      rw [hall]
      simp
    by_cases hbad : ∃ t ∈ args.map tupVals, tupleOKb t = false
    · have hinit : initPD args = .error .valueError := by
        unfold initPD
        rw [hconv, ok_bind, validateTuples_err _ hbad, error_bind]
      rw [hinit]
      constructor
      · exact ⟨fun _ => hcfg.mpr (Or.inl hbad), fun _ => rfl⟩
      · constructor
        · intro hcon; cases hcon
        · rintro ⟨hful, -⟩; rw [hall] at hful; cases hful
    · have hok : ∀ t ∈ args.map tupVals, tupleOKb t = true := by
        intro t ht
        cases hb : tupleOKb t
        · exact absurd ⟨t, ht, hb⟩ hbad
        · rfl
      by_cases hnd : (((args.map tupVals).map pairOf).map Prod.fst).Nodup
      · have hinit : initPD args = .ok ⟨(args.map tupVals).map pairOf⟩ := by
          unfold initPD
          rw [hconv, ok_bind, validateTuples_ok _ hok, ok_bind,
            show buildDerivs [] ((args.map tupVals).map pairOf) =
              .ok ([] ++ (args.map tupVals).map pairOf) from
              buildDerivs_okOf _ [] (by simpa using hnd), ok_bind,
            List.nil_append]
        rw [hinit]
        constructor
        · constructor
          · intro hcon; cases hcon
          · intro hinv
            rcases hcfg.mp hinv with h | h
            · exact absurd h hbad
            · rw [axesOf_eq _ hok] at h
              exact absurd hnd h
        · constructor
          · intro hcon; cases hcon
          · rintro ⟨hful, -⟩; rw [hall] at hful; cases hful
      · have hinit : initPD args = .error .valueError := by
          unfold initPD
          rw [hconv, ok_bind, validateTuples_ok _ hok, ok_bind,
            buildDerivs_errOf _ [] (by simp) (by simpa using hnd), error_bind]
        rw [hinit]
        constructor
        · constructor
          · intro _
            refine hcfg.mpr (Or.inr ?_)
            rw [axesOf_eq _ hok]
            exact hnd
          · intro _; rfl
        · constructor
          · intro hcon; cases hcon
          · rintro ⟨hful, -⟩; rw [hall] at hful; cases hful
  · have hf : args.all isTup = false := by
      cases hb : args.all isTup
      · rfl
      · exact absurd hb hall
    match args with
    | [] => rw [List.all_nil] at hf; cases hf
    | [a] =>
      have hcfg : ¬ configInvalid [a] := by
        unfold configInvalid
        rw [hf]
        simp
      have hconv1 : convert_args [a] = .error .indexError := by
        unfold convert_args
        rw [hf]
        simp
      have hinit : initPD [a] = .error .indexError := by
        unfold initPD
        rw [hconv1, error_bind]
      rw [hinit]
      constructor
      · constructor
        · intro hcon; cases hcon
        · intro hinv; exact absurd hinv hcfg
      · exact ⟨fun _ => ⟨hf, rfl⟩, fun _ => rfl⟩
    | [a, b] =>
      have hconv : convert_args [a, b] = .ok [[a, b]] := by
        unfold convert_args
        rw [hf]
        simp
      have hcfg : configInvalid [a, b] ↔ tupleOKb [a, b] = false := by
        unfold configInvalid
        rw [hf]
        simp
      by_cases hok : tupleOKb [a, b] = true
      · have hinit : initPD [a, b] = .ok ⟨[pairOf [a, b]]⟩ := by
          unfold initPD
          rw [hconv, ok_bind, validateTuples_ok _ (by simpa using hok), ok_bind]
          rfl
        rw [hinit]
        constructor
        · constructor
          · intro hcon; cases hcon
          · intro hinv
            rw [hcfg.mp hinv] at hok; cases hok
        · constructor
          · intro hcon; cases hcon
          · rintro ⟨-, hlen⟩; simp at hlen
      · have hokf : tupleOKb [a, b] = false := by
          cases hb : tupleOKb [a, b]
          · rfl
          · exact absurd hb hok
        have hinit : initPD [a, b] = .error .valueError := by
          unfold initPD
          rw [hconv, ok_bind, validateTuples_err _ ⟨[a, b], by simp, hokf⟩, error_bind]
        rw [hinit]
        constructor
        · exact ⟨fun _ => hcfg.mpr hokf, fun _ => rfl⟩
        · constructor
          · intro hcon; cases hcon
          · rintro ⟨-, hlen⟩; simp at hlen
    | a :: b :: c :: rest =>
      have hconv2 : convert_args (a :: b :: c :: rest) = .error .valueError := by
        unfold convert_args
        rw [hf]
        simp only [Bool.false_eq_true, if_false, List.length_cons]
        rw [if_pos (by omega)]
      have hinit : initPD (a :: b :: c :: rest) = .error .valueError := by
        unfold initPD
        rw [hconv2, error_bind]
      have hcfg : configInvalid (a :: b :: c :: rest) := by
        unfold configInvalid
        rw [hf]
        simp only [Bool.false_eq_true, if_false, List.length_cons]
        rw [if_neg (by omega)]
        omega
      rw [hinit]
      constructor
      · exact ⟨fun _ => hcfg, fun _ => rfl⟩
      · constructor
        · intro hcon; cases hcon
        · rintro ⟨-, hlen⟩; simp at hlen

/-- The value the non-uniform algorithm accumulates at one grid row `i`:
the weighted sum of the field read at the (possibly wrapped-around)
positions `i + offset`. -/
def nonUniValue (y : NDArray) (dim n : ℕ) (r : CoefRec) (i : ℕ) (idx : List ℤ) : ℚ :=
  ((r.offsets.zip r.coefficients).map
    (fun q => q.2 * y.data (idx.set dim (pyWrap ((i : ℤ) + q.1) n)))).sum

theorem nonUniRow_okOf (y : NDArray) (dim i n : ℕ) (pairs : List (ℤ × ℚ))
    (hin : i < n) :
    ∀ yd : NDArray,
      (∀ q ∈ pairs, -(n : ℤ) ≤ (i : ℤ) + q.1 ∧ (i : ℤ) + q.1 < (n : ℤ)) →
      ∃ r, nonUniRow y dim i n pairs yd = .ok r ∧ r.shape = yd.shape ∧
        ∀ idx, r.data idx = yd.data idx +
          (if idx.getD dim 0 = (i : ℤ) then
            ((pairs.map
              (fun q => q.2 * y.data (idx.set dim (pyWrap ((i : ℤ) + q.1) n)))).sum)
          else 0) := by
  induction pairs with
  | nil =>
    intro yd _
    exact ⟨yd, rfl, rfl, fun idx => by simp⟩
  | cons q rest ih =>
    intro yd hreads
    obtain ⟨off, w⟩ := q
    have hq := hreads (off, w) (by simp)
    simp only [nonUniRow]
    rw [if_neg (by omega), if_neg (by omega)]
    obtain ⟨r, hok, hsh, hdata⟩ :=
      ih ⟨yd.shape, fun idx =>
        if idx.getD dim 0 = (i : ℤ) then
          yd.data idx + w * y.data (idx.set dim (pyWrap ((i : ℤ) + off) n))
        else yd.data idx⟩
        (fun x hx => hreads x (by simp [hx]))
    refine ⟨r, hok, hsh, fun idx => ?_⟩
    rw [hdata idx]
    by_cases hc : idx.getD dim 0 = (i : ℤ)
    · simp only [hc, if_pos, List.map_cons, List.sum_cons]
      ring
    · simp only [if_neg hc, add_zero]

theorem nonUniRows_okOf (y : NDArray) (dim n : ℕ) (rows : List (ℕ × CoefRec)) :
    ∀ yd : NDArray,
      (∀ p ∈ rows, p.1 < n ∧ ∀ q ∈ (p.2.offsets.zip p.2.coefficients),
        -(n : ℤ) ≤ (p.1 : ℤ) + q.1 ∧ (p.1 : ℤ) + q.1 < (n : ℤ)) →
      ∃ r, nonUniRows y dim n rows yd = .ok r ∧ r.shape = yd.shape ∧
        ∀ idx, r.data idx = yd.data idx +
          (((rows.filter (fun p => decide ((p.1 : ℤ) = idx.getD dim 0))).map
            (fun p => nonUniValue y dim n p.2 p.1 idx)).sum) := by
  induction rows with
  | nil =>
    intro yd _
    exact ⟨yd, rfl, rfl, fun idx => by simp⟩
  | cons p rest ih =>
    intro yd hrows
    obtain ⟨j, rc⟩ := p
    obtain ⟨hj, hjreads⟩ := hrows (j, rc) (by simp)
    simp only [nonUniRows]
    obtain ⟨yd', hok1, hsh1, hdata1⟩ :=
      nonUniRow_okOf y dim j n (rc.offsets.zip rc.coefficients) hj yd hjreads
    rw [hok1, ok_bind]
    obtain ⟨r, hok2, hsh2, hdata2⟩ := ih yd' (fun x hx => hrows x (by simp [hx]))
    refine ⟨r, hok2, hsh2.trans hsh1, fun idx => ?_⟩
    rw [hdata2 idx, hdata1 idx]
    by_cases hc : (j : ℤ) = idx.getD dim 0
    · rw [List.filter_cons_of_pos (by simpa using hc)]
      simp only [List.map_cons, List.sum_cons, nonUniValue]
      rw [if_pos hc.symm]
      ring
    · rw [List.filter_cons_of_neg (by simpa using hc)]
      rw [if_neg (fun h => hc h.symm)]
      ring

theorem range_map_filter_eq (L i : ℕ) (g : ℕ → CoefRec) (hi : i < L) :
    (((List.range L).map (fun j => (j, g j))).filter
      (fun p => decide ((p.1 : ℤ) = (i : ℤ)))) = [(i, g i)] := by
  induction L with
  | zero => omega
  | succ L ih =>
    rw [List.range_succ, List.map_append, List.filter_append]
    by_cases hiL : i < L
    · have hLf : (List.filter (fun p : ℕ × CoefRec => decide ((p.1 : ℤ) = (i : ℤ)))
          [(L, g L)]) = [] := by
        simp only [List.filter_cons, decide_eq_true_eq]
        rw [if_neg (by omega)]
        rfl
      rw [ih hiL]
      simp only [List.map_cons, List.map_nil]
      rw [hLf, List.append_nil]
    · have hieq : i = L := by omega
      subst hieq
      have hpre : (((List.range i).map (fun j => (j, g j))).filter
          (fun p => decide ((p.1 : ℤ) = (i : ℤ)))) = [] := by
        rw [List.filter_eq_nil_iff]
        intro p hp
        obtain ⟨j, hj, rfl⟩ := List.mem_map.mp hp
        have hjlt := List.mem_range.mp hj
        simp only [decide_eq_true_eq]
        omega
      rw [hpre]
      simp [List.filter_cons]

/-- Counterexample to C7 as stated: on the two-point field `[10, 20]`
with the per-index record `weights [1], offsets [-1]` at index 0, the
read position `0 + (-1) = -1` lies outside `[0, 2)`, yet the non-uniform
algorithm raises nothing — it silently reads the element at the wrapped
position `2 + (-1) = 1` (value 20).  No shift-primitive validation
happens in `_diff_non_uni`. -/
theorem claim7_counterexample :
    ¬ (0 ≤ (0 : ℤ) + (-1)) ∧
      errOf (diff_non_uni ⟨[2], fun idx => 10 * (idx.getD 0 0 + 1)⟩ [0, 1] 0
        [⟨[1], [-1]⟩, ⟨[1], [0]⟩]) = none ∧
      getData (diff_non_uni ⟨[2], fun idx => 10 * (idx.getD 0 0 + 1)⟩ [0, 1] 0
        [⟨[1], [-1]⟩, ⟨[1], [0]⟩]) [0] = some 20 := by
  exact ⟨by decide, rfl, by with_unfolding_all rfl⟩

/-- C7 amended: the non-uniform algorithm does not validate its read
positions with the shared shift primitive.  A per-index read position
`i + offset` inside `[-extent, extent)` never raises: a non-negative
position is read directly and a negative one silently reads the entry at
`extent + (i + offset)` (Python wrap-around); the accumulated row value
is the weighted sum over these (possibly wrapped) reads.  (Only a read
position outside `[-extent, extent)`, or a row index at or beyond the
extent, raises `IndexError` through numpy integer indexing.) -/
theorem claim7_nonuni_silent_wrap (y : NDArray) (coords : List ℚ) (dim : ℕ)
    (coefs : List CoefRec) (hL : coords.length ≤ extent y dim)
    (hreads : ∀ i < coords.length,
      ∀ q ∈ ((coefs.getD i ⟨[], []⟩).offsets.zip (coefs.getD i ⟨[], []⟩).coefficients),
        -(extent y dim : ℤ) ≤ (i : ℤ) + q.1 ∧ (i : ℤ) + q.1 < (extent y dim : ℤ))
    (i : ℕ) (hi : i < coords.length) (idx : List ℤ)
    (hidx : idx.getD dim 0 = (i : ℤ)) :
    getData (diff_non_uni y coords dim coefs) idx =
      some (nonUniValue y dim (extent y dim) (coefs.getD i ⟨[], []⟩) i idx) := by
  unfold diff_non_uni
  obtain ⟨r, hok, -, hdata⟩ :=
    nonUniRows_okOf y dim (extent y dim)
      ((List.range coords.length).map (fun j => (j, coefs.getD j ⟨[], []⟩)))
      (zerosLike y)
      (by
        intro p hp
        obtain ⟨j, hj, rfl⟩ := List.mem_map.mp hp
        have hjlt := List.mem_range.mp hj
        exact ⟨by omega, hreads j hjlt⟩)
  rw [hok]
  show some (r.data idx) = _
  rw [hdata idx]
  rw [show (fun p : ℕ × CoefRec => decide ((p.1 : ℤ) = idx.getD dim 0)) =
    (fun p : ℕ × CoefRec => decide ((p.1 : ℤ) = (i : ℤ))) by rw [hidx]]
  rw [range_map_filter_eq coords.length i _ hi]
  simp [zerosLike]

/-- Witness for C7 amended at a concrete input: the silent-wrap instance
of the counterexample, evaluated through the amended theorem. -/
theorem claim7_witness :
    getData (diff_non_uni ⟨[2], fun idx => 10 * (idx.getD 0 0 + 1)⟩ [0, 1] 0
        [⟨[1], [-1]⟩, ⟨[1], [0]⟩]) [0] =
      some (nonUniValue ⟨[2], fun idx => 10 * (idx.getD 0 0 + 1)⟩ 0 2 ⟨[1], [-1]⟩ 0 [0]) := by
  exact claim7_nonuni_silent_wrap ⟨[2], fun idx => 10 * (idx.getD 0 0 + 1)⟩ [0, 1] 0
    [⟨[1], [-1]⟩, ⟨[1], [0]⟩] (by decide)
    (by decide) 0 (by decide) [0] (by decide)

/-- All shifted windows of a scheme stay inside `[0, n]`: exactly the
complement of the condition under which `_shift_slice` raises. -/
def windowsOK (s : Slice) (os : List ℤ) (n : ℕ) : Prop :=
  ∀ o ∈ os, 0 ≤ s.start + o ∧ s.stop + o ≤ (n : ℤ)

instance (s : Slice) (os : List ℤ) (n : ℕ) : Decidable (windowsOK s os n) :=
  List.decidableBAll _ os

theorem pyBound_of (i : ℤ) (n : ℕ) (h0 : 0 ≤ i) (h1 : i ≤ (n : ℤ)) : pyBound i n = i := by
  unfold pyBound
  rw [if_neg (by omega)]
  omega

theorem shift_slice_ok (sl : Slice) (off : ℤ) (n : ℕ) (h1 : 0 ≤ sl.start + off)
    (h2 : sl.stop + off ≤ (n : ℤ)) :
    shift_slice sl off n = .ok ⟨sl.start + off, sl.stop + off⟩ := by
  unfold shift_slice
  rw [if_neg (by omega)]

theorem shift_slice_err (sl : Slice) (off : ℤ) (n : ℕ)
    (h : sl.start + off < 0 ∨ (n : ℤ) < sl.stop + off) :
    shift_slice sl off n = .error .indexError := by
  unfold shift_slice
  rw [if_pos (by omega)]

theorem shiftAll_ok (refS : Slice) (n : ℕ) (os : List ℤ) (h : windowsOK refS os n) :
    shiftAll refS n os = .ok (os.map fun o => ⟨refS.start + o, refS.stop + o⟩) := by
  induction os with
  | nil => rfl
  | cons o rest ih =>
    obtain ⟨h1, h2⟩ := h o (by simp)
    simp only [shiftAll]
    rw [shift_slice_ok _ _ _ h1 h2, ok_bind, ih (fun x hx => h x (by simp [hx])),
      ok_bind, List.map_cons]

theorem shiftAll_err (refS : Slice) (n : ℕ) (os : List ℤ) (h : ¬ windowsOK refS os n) :
    shiftAll refS n os = .error .indexError := by
  induction os with
  | nil => exact absurd (fun o ho => absurd ho (List.not_mem_nil o)) h
  | cons o rest ih =>
    simp only [shiftAll]
    by_cases ho : 0 ≤ refS.start + o ∧ refS.stop + o ≤ (n : ℤ)
    · rw [shift_slice_ok _ _ _ ho.1 ho.2, ok_bind]
      have hrest : ¬ windowsOK refS rest n := by
        intro hr
        refine h (fun x hx => ?_)
        rcases List.mem_cons.mp hx with rfl | hx'
        · exact ho
        · exact hr x hx'
      rw [ih hrest, error_bind]
    · rw [shift_slice_err _ _ _ (by omega), error_bind]

theorem addBand_okOf (y : NDArray) (dim : ℕ) (w : ℚ) (rs re o : ℤ) (yd : NDArray)
    (h0 : 0 ≤ rs) (h1 : rs ≤ re) (h2 : re ≤ (extent y dim : ℤ))
    (h3 : 0 ≤ rs + o) (h4 : re + o ≤ (extent y dim : ℤ)) :
    ∃ r, addBand y ⟨rs, re⟩ dim w ⟨rs + o, re + o⟩ yd = .ok r ∧ r.shape = yd.shape ∧
      ∀ idx, r.data idx = yd.data idx +
        (if rs ≤ idx.getD dim 0 ∧ idx.getD dim 0 < re then
          mulw w (y.data (idx.set dim (idx.getD dim 0 + o)))
        else 0) := by
  have hb1 : pyBound rs (extent y dim) = rs := pyBound_of _ _ h0 (by omega)
  have hb2 : pyBound re (extent y dim) = re := pyBound_of _ _ (by omega) h2
  have hb3 : pyBound (rs + o) (extent y dim) = rs + o := pyBound_of _ _ h3 (by omega)
  have hb4 : pyBound (re + o) (extent y dim) = re + o := pyBound_of _ _ (by omega) h4
  have hlen : bandLen ⟨rs + o, re + o⟩ (extent y dim) = bandLen ⟨rs, re⟩ (extent y dim) := by
    unfold bandLen
    simp only [hb1, hb2, hb3, hb4]
    omega
  unfold addBand
  rw [if_pos (Or.inl hlen)]
  refine ⟨_, rfl, rfl, fun idx => ?_⟩
  simp only [hb1, hb2, hb3]
  by_cases hc : rs ≤ idx.getD dim 0 ∧ idx.getD dim 0 < re
  · rw [if_pos hc, if_pos hc]
    by_cases hone : bandLen ⟨rs + o, re + o⟩ (extent y dim) = 1
    · rw [if_pos hone]
      have hre : re = rs + 1 := by
        rw [hlen] at hone
        unfold bandLen at hone
        simp only [hb1, hb2] at hone
        omega
      have hieq : idx.getD dim 0 = rs := by omega
      rw [hieq]
    · rw [if_neg hone]
      have harith : idx.getD dim 0 - rs + (rs + o) = idx.getD dim 0 + o := by ring
      rw [harith]
  · rw [if_neg hc, if_neg hc, add_zero]

theorem addBands_okOf (y : NDArray) (dim : ℕ) (rs re : ℤ)
    (h0 : 0 ≤ rs) (h1 : rs ≤ re) (h2 : re ≤ (extent y dim : ℤ)) :
    ∀ (pairs : List (ℚ × ℤ)) (yd : NDArray),
      (∀ p ∈ pairs, 0 ≤ rs + p.2 ∧ re + p.2 ≤ (extent y dim : ℤ)) →
      ∃ r, addBands y ⟨rs, re⟩ dim
          (pairs.map (fun p => (p.1, (⟨rs + p.2, re + p.2⟩ : Slice)))) yd = .ok r ∧
        r.shape = yd.shape ∧
        ∀ idx, r.data idx = yd.data idx +
          (if rs ≤ idx.getD dim 0 ∧ idx.getD dim 0 < re then
            ((pairs.map
              (fun p => mulw p.1 (y.data (idx.set dim (idx.getD dim 0 + p.2))))).sum)
          else 0) := by
  intro pairs
  induction pairs with
  | nil =>
    intro yd _
    exact ⟨yd, rfl, rfl, fun idx => by simp⟩
  | cons p rest ih =>
    intro yd hws
    obtain ⟨w, o⟩ := p
    obtain ⟨hw1, hw2⟩ := hws (w, o) (by simp)
    simp only [List.map_cons, addBands]
    obtain ⟨yd', hok1, hsh1, hdata1⟩ := addBand_okOf y dim w rs re o yd h0 h1 h2 hw1 hw2
    rw [hok1, ok_bind]
    obtain ⟨r, hok2, hsh2, hdata2⟩ := ih yd' (fun x hx => hws x (by simp [hx]))
    refine ⟨r, hok2, hsh2.trans hsh1, fun idx => ?_⟩
    rw [hdata2 idx, hdata1 idx]
    by_cases hc : rs ≤ idx.getD dim 0 ∧ idx.getD dim 0 < re
    · simp only [if_pos hc, List.map_cons, List.sum_cons]
      ring
    · simp only [if_neg hc, add_zero]

theorem zip_map_slices (ws : List ℚ) (os : List ℤ) (f : ℤ → Slice) :
    ws.zip (os.map f) = (ws.zip os).map (fun p => (p.1, f p.2)) := by
  induction ws generalizing os with
  | nil => simp
  | cons w ws ih =>
    cases os with
    | nil => simp
    | cons o os => simp [ih]

theorem shiftAll_okL (a c : ℤ) (n : ℕ) (os : List ℤ) (h : windowsOK ⟨a, c⟩ os n) :
    shiftAll ⟨a, c⟩ n os = .ok (os.map fun o => ⟨a + o, c + o⟩) :=
  shiftAll_ok ⟨a, c⟩ n os h

theorem shiftAll_errL (a c : ℤ) (n : ℕ) (os : List ℤ) (h : ¬ windowsOK ⟨a, c⟩ os n) :
    shiftAll ⟨a, c⟩ n os = .error .indexError :=
  shiftAll_err ⟨a, c⟩ n os h

/-- The weighted accumulation one scheme record contributes at a
reference index, as the uniform algorithm computes it (including the
near-1 weight shortcut `mulw`). -/
def recordValue (y : NDArray) (dim : ℕ) (r : CoefRec) (idx : List ℤ) : ℚ :=
  ((r.coefficients.zip r.offsets).map
    (fun p => mulw p.1 (y.data (idx.set dim (idx.getD dim 0 + p.2))))).sum

/-- Which scheme record governs a given index: forward on `[0, b)`,
center on `[b, npts-b)`, backward on `[npts-b, npts)`. -/
def schemeAt (coefs : Coefs) (npts : ℕ) (i : ℤ) : CoefRec :=
  if i < ((coefs.center.coefficients.length / 2 : ℕ) : ℤ) then coefs.forward
  else if i < (npts : ℤ) - ((coefs.center.coefficients.length / 2 : ℕ) : ℤ) then
    coefs.center
  else coefs.backward

/-- The per-index value of the uniform stencil algorithm: the governing
scheme's accumulation scaled by `1 / h^m`. -/
def uniformStencilValue (y : NDArray) (h : ℚ) (m dim : ℕ) (coefs : Coefs)
    (idx : List ℤ) : ℚ :=
  recordValue y dim (schemeAt coefs (extent y dim) (idx.getD dim 0)) idx * (1 / h ^ m)

/-- Modelled from the claim's words: the accumulation with every weight
multiplied as written ("weight times the field read-window shifted by
offset"), with no special case for weights within `1e-14` of one. -/
def recordValueClaim (y : NDArray) (dim : ℕ) (r : CoefRec) (idx : List ℤ) : ℚ :=
  ((r.coefficients.zip r.offsets).map
    (fun p => p.1 * y.data (idx.set dim (idx.getD dim 0 + p.2)))).sum

/-- Modelled from the claim's words: the per-index value the claim
asserts for the uniform stencil algorithm. -/
def uniformStencilValueClaim (y : NDArray) (h : ℚ) (m dim : ℕ) (coefs : Coefs)
    (idx : List ℤ) : ℚ :=
  recordValueClaim y dim (schemeAt coefs (extent y dim) (idx.getD dim 0)) idx *
    (1 / h ^ m)

theorem diff_okOf (y : NDArray) (h : ℚ) (deriv dim : ℕ) (coefs : Coefs)
    (hb : 2 * (coefs.center.coefficients.length / 2) ≤ extent y dim)
    (hC : windowsOK (centerRef (coefs.center.coefficients.length / 2) (extent y dim))
      coefs.center.offsets (extent y dim))
    (hF : windowsOK (forwardRef (coefs.center.coefficients.length / 2) (extent y dim))
      coefs.forward.offsets (extent y dim))
    (hB : windowsOK (backwardRef (coefs.center.coefficients.length / 2) (extent y dim))
      coefs.backward.offsets (extent y dim))
    (hh : h ≠ 0) :
    ∃ r, diff y h deriv dim coefs = .ok r ∧ r.shape = y.shape ∧
      ∀ idx, 0 ≤ idx.getD dim 0 → idx.getD dim 0 < (extent y dim : ℤ) →
        r.data idx =
          recordValue y dim (schemeAt coefs (extent y dim) (idx.getD dim 0)) idx *
            (1 / h ^ deriv) := by
  obtain ⟨b, hbdef⟩ : ∃ b, coefs.center.coefficients.length / 2 = b := ⟨_, rfl⟩
  obtain ⟨n, hndef⟩ : ∃ n, extent y dim = n := ⟨_, rfl⟩
  rw [hbdef, hndef] at hb hC hF hB
  have hpow : h ^ deriv ≠ 0 := pow_ne_zero _ hh
  obtain ⟨yd1, hok1, hsh1, hdata1⟩ :=
    addBands_okOf y dim (b : ℤ) ((n : ℤ) - b) (by omega) (by omega) (by omega)
      (coefs.center.coefficients.zip coefs.center.offsets) (zerosLike y)
      (by
        intro p hp
        obtain ⟨w, o⟩ := p
        have h2 := hC o (List.of_mem_zip hp).2
        simp only [centerRef] at h2
        omega)
  obtain ⟨yd2, hok2, hsh2, hdata2⟩ :=
    addBands_okOf y dim 0 (b : ℤ) (by omega) (by omega) (by omega)
      (coefs.forward.coefficients.zip coefs.forward.offsets) yd1
      (by
        intro p hp
        obtain ⟨w, o⟩ := p
        have h2 := hF o (List.of_mem_zip hp).2
        simp only [forwardRef] at h2
        omega)
  obtain ⟨yd3, hok3, hsh3, hdata3⟩ :=
    addBands_okOf y dim ((n : ℤ) - b) (n : ℤ) (by omega) (by omega) (by omega)
      (coefs.backward.coefficients.zip coefs.backward.offsets) yd2
      (by
        intro p hp
        obtain ⟨w, o⟩ := p
        have h2 := hB o (List.of_mem_zip hp).2
        simp only [backwardRef] at h2
        omega)
  refine ⟨scaleArr yd3 (1 / h ^ deriv), ?_, ?_, ?_⟩
  · simp only [diff, centerRef, forwardRef, backwardRef, hbdef, hndef]
    rw [shiftAll_okL _ _ _ _ hC, ok_bind]
    simp only [zip_map_slices]
    rw [hok1, ok_bind, shiftAll_okL _ _ _ _ hF, ok_bind]
    simp only [zip_map_slices]
    rw [hok2, ok_bind, shiftAll_okL _ _ _ _ hB, ok_bind]
    simp only [zip_map_slices]
    rw [hok3, ok_bind, if_neg hpow]
  · show yd3.shape = y.shape
    rw [hsh3, hsh2, hsh1]
    rfl
  · intro idx hi0 hin
    rw [hndef] at hin
    show yd3.data idx * (1 / h ^ deriv) = _
    rw [hdata3 idx, hdata2 idx, hdata1 idx]
    simp only [zerosLike]
    have hs0 : schemeAt coefs (extent y dim) (idx.getD dim 0) =
        schemeAt coefs n (idx.getD dim 0) := by rw [hndef]
    rw [hs0]
    by_cases hreg1 : idx.getD dim 0 < (b : ℤ)
    · have c1 : ¬((b : ℤ) ≤ idx.getD dim 0 ∧ idx.getD dim 0 < (n : ℤ) - b) := by omega
      have c2 : (0 : ℤ) ≤ idx.getD dim 0 ∧ idx.getD dim 0 < (b : ℤ) := ⟨hi0, hreg1⟩
      have c3 : ¬((n : ℤ) - b ≤ idx.getD dim 0 ∧ idx.getD dim 0 < (n : ℤ)) := by omega
      rw [if_neg c1, if_pos c2, if_neg c3]
      have hs : schemeAt coefs n (idx.getD dim 0) = coefs.forward := by
        unfold schemeAt
        rw [hbdef, if_pos hreg1]
      rw [hs]
      unfold recordValue
      ring
    · by_cases hreg2 : idx.getD dim 0 < (n : ℤ) - b
      · have c1 : (b : ℤ) ≤ idx.getD dim 0 ∧ idx.getD dim 0 < (n : ℤ) - b := ⟨by omega, hreg2⟩
        have c2 : ¬((0 : ℤ) ≤ idx.getD dim 0 ∧ idx.getD dim 0 < (b : ℤ)) := by omega
        have c3 : ¬((n : ℤ) - b ≤ idx.getD dim 0 ∧ idx.getD dim 0 < (n : ℤ)) := by omega
        rw [if_pos c1, if_neg c2, if_neg c3]
        have hs : schemeAt coefs n (idx.getD dim 0) = coefs.center := by
          unfold schemeAt
          rw [hbdef, if_neg hreg1, if_pos hreg2]
        rw [hs]
        unfold recordValue
        ring
      · have c1 : ¬((b : ℤ) ≤ idx.getD dim 0 ∧ idx.getD dim 0 < (n : ℤ) - b) := by omega
        have c2 : ¬((0 : ℤ) ≤ idx.getD dim 0 ∧ idx.getD dim 0 < (b : ℤ)) := by omega
        have c3 : (n : ℤ) - b ≤ idx.getD dim 0 ∧ idx.getD dim 0 < (n : ℤ) := ⟨by omega, hin⟩
        rw [if_neg c1, if_neg c2, if_pos c3]
        have hs : schemeAt coefs n (idx.getD dim 0) = coefs.backward := by
          unfold schemeAt
          rw [hbdef, if_neg hreg1, if_neg hreg2]
        rw [hs]
        unfold recordValue
        ring

/-- A concrete three-point 1-D field used in the uniform-stencil
witnesses. -/
def fieldU : NDArray := ⟨[3], fun idx => ((idx.getD 0 0) * (idx.getD 0 0) : ℤ)⟩

/-- Concrete scheme records with half-width 1 whose shifted windows all
stay in bounds on three points. -/
def coefsU : Coefs :=
  ⟨⟨[1, -2, 1], [-1, 0, 1]⟩, ⟨[1, -2, 1], [0, 1, 2]⟩, ⟨[1, -2, 1], [-2, -1, 0]⟩⟩

/-- A one-point field and a single-weight center record whose weight is
within `1e-14` of one but not equal to it. -/
def yOne : NDArray := ⟨[1], fun _ => 1⟩

/-- Center weight `1 + 10^-20`: closer to one than the `1e-14` threshold,
so `_apply_to_array` adds the slice unmultiplied. -/
def coefsEps : Coefs := ⟨⟨[1 + 1 / 10 ^ 20], [0]⟩, ⟨[], []⟩, ⟨[], []⟩⟩

/-- Counterexample to C1 as stated: with the center weight `1 + 10^-20`
(within `1e-14` of one) on a one-point field, the code adds the shifted
slice unmultiplied and returns 1, while the claim's formula — weight
times the shifted window for every pair — gives `1 + 10^-20`. -/
theorem claim1_counterexample :
    getData (diff yOne 1 1 0 coefsEps) [0] = some 1 ∧
      uniformStencilValueClaim yOne 1 1 0 coefsEps [0] = 1 + 1 / 10 ^ 20 ∧
      getData (diff yOne 1 1 0 coefsEps) [0] ≠
        some (uniformStencilValueClaim yOne 1 1 0 coefsEps [0]) := by
  have h1 : getData (diff yOne 1 1 0 coefsEps) [0] = some 1 := by
    with_unfolding_all rfl
  have h2 : uniformStencilValueClaim yOne 1 1 0 coefsEps [0] = 1 + 1 / 10 ^ 20 := by
    with_unfolding_all rfl
  refine ⟨h1, h2, ?_⟩
  rw [h1, h2]
  intro hcon
  have h3 := Option.some.inj hcon
  norm_num at h3

/-- C1 amended: on a uniform grid with `b = floor(len(center_weights)/2)`
and all shifted windows in bounds, the value at each in-range index along
`dim` is the governing scheme's accumulation — forward on `[0, b)`,
center on `[b, npts-b)`, backward on `[npts-b, npts)`, each pair
contributing the shifted read-window times its weight except that a
weight within `1e-14` of one is added unmultiplied — scaled by
`1 / h^order`. -/
theorem claim1_uniform_stencil (y : NDArray) (h : ℚ) (deriv dim : ℕ) (coefs : Coefs)
    (hb : 2 * (coefs.center.coefficients.length / 2) ≤ extent y dim)
    (hC : windowsOK (centerRef (coefs.center.coefficients.length / 2) (extent y dim))
      coefs.center.offsets (extent y dim))
    (hF : windowsOK (forwardRef (coefs.center.coefficients.length / 2) (extent y dim))
      coefs.forward.offsets (extent y dim))
    (hB : windowsOK (backwardRef (coefs.center.coefficients.length / 2) (extent y dim))
      coefs.backward.offsets (extent y dim))
    (hh : h ≠ 0) (idx : List ℤ) (hi0 : 0 ≤ idx.getD dim 0)
    (hin : idx.getD dim 0 < (extent y dim : ℤ)) :
    getData (diff y h deriv dim coefs) idx =
      some (uniformStencilValue y h deriv dim coefs idx) := by
  obtain ⟨r, hok, -, hdata⟩ := diff_okOf y h deriv dim coefs hb hC hF hB hh
  rw [hok]
  show some (r.data idx) = _
  rw [hdata idx hi0 hin]
  rfl

/-- Witness for C1 amended at a concrete input: the half-width-1 scheme
records on a three-point field, read at interior index 1. -/
theorem claim1_witness :
    windowsOK (centerRef (coefsU.center.coefficients.length / 2) (extent fieldU 0))
        coefsU.center.offsets (extent fieldU 0) ∧
      getData (diff fieldU 1 2 0 coefsU) [1] =
        some (uniformStencilValue fieldU 1 2 0 coefsU [1]) :=
  ⟨by decide, claim1_uniform_stencil fieldU 1 2 0 coefsU (by decide) (by decide)
    (by decide) (by decide) one_ne_zero [1] (by decide) (by decide)⟩

/-- A three-point 1-D field for the C6 counterexample. -/
def yLin3 : NDArray := ⟨[3], fun idx => (idx.getD 0 0 : ℤ) + 1⟩

/-- Scheme records with half-width 2 (five center weights): on a
three-point axis the center reference range `[2, 1)` is degenerate while
the forward offsets reach out of bounds. -/
def coefsWide : Coefs :=
  ⟨⟨[2, 2, 2, 2, 2], [-2, -1, 0, 1, 2]⟩, ⟨[3, 3, 3, 3, 3, 3], [0, 1, 2, 3, 4, 5]⟩,
   ⟨[3, 3, 3, 3, 3, 3], [0, -1, -2, -3, -4, -5]⟩⟩

/-- Counterexample to C6 as stated: with half-width 2 on three points the
forward scheme's shifted windows leave `[0, 3)`, so the claim demands a
`BoundsError` (`IndexError`); but the degenerate center accumulation —
target window `[2, 1)` of length 0, source window `slice(0, -1)` of
length 2 after wrap-around — fails first with a numpy broadcast
`ValueError`, so the evaluation does not fail with `BoundsError`. -/
theorem claim6_counterexample :
    ¬ windowsOK (forwardRef (coefsWide.center.coefficients.length / 2) (extent yLin3 0))
        coefsWide.forward.offsets (extent yLin3 0) ∧
      errOf (diff yLin3 1 2 0 coefsWide) = some .valueError := by
  constructor
  · decide
  · with_unfolding_all rfl

/-- C6 amended: on a uniform grid with `2*b ≤ npts`, whenever some
scheme's reference range shifted by one of its offsets leaves
`[0, npts)`, `_diff` aborts with `IndexError` (the `BoundsError`) and no
partial result is returned; and when every shifted window stays inside
`[0, npts)` (and the spacing is nonzero) no error is raised.  When
`2*b > npts` a broadcast `ValueError` can preempt the `IndexError`. -/
theorem claim6_bounds (y : NDArray) (h : ℚ) (deriv dim : ℕ) (coefs : Coefs)
    (hb : 2 * (coefs.center.coefficients.length / 2) ≤ extent y dim) :
    ((¬ windowsOK (centerRef (coefs.center.coefficients.length / 2) (extent y dim))
        coefs.center.offsets (extent y dim) ∨
      ¬ windowsOK (forwardRef (coefs.center.coefficients.length / 2) (extent y dim))
        coefs.forward.offsets (extent y dim) ∨
      ¬ windowsOK (backwardRef (coefs.center.coefficients.length / 2) (extent y dim))
        coefs.backward.offsets (extent y dim)) →
      diff y h deriv dim coefs = .error .indexError) ∧
    ((windowsOK (centerRef (coefs.center.coefficients.length / 2) (extent y dim))
        coefs.center.offsets (extent y dim) ∧
      windowsOK (forwardRef (coefs.center.coefficients.length / 2) (extent y dim))
        coefs.forward.offsets (extent y dim) ∧
      windowsOK (backwardRef (coefs.center.coefficients.length / 2) (extent y dim))
        coefs.backward.offsets (extent y dim) ∧ h ≠ 0) →
      ∃ r, diff y h deriv dim coefs = .ok r) := by
  constructor
  · intro hbad
    obtain ⟨b, hbdef⟩ : ∃ b, coefs.center.coefficients.length / 2 = b := ⟨_, rfl⟩
    obtain ⟨n, hndef⟩ : ∃ n, extent y dim = n := ⟨_, rfl⟩
    rw [hbdef, hndef] at hb hbad
    by_cases hC : windowsOK (centerRef b n) coefs.center.offsets n
    · obtain ⟨yd1, hok1, -, -⟩ :=
        addBands_okOf y dim (b : ℤ) ((n : ℤ) - b) (by omega) (by omega) (by omega)
          (coefs.center.coefficients.zip coefs.center.offsets) (zerosLike y)
          (by
            intro p hp
            obtain ⟨w, o⟩ := p
            have h2 := hC o (List.of_mem_zip hp).2
            simp only [centerRef] at h2
            omega)
      by_cases hF2 : windowsOK (forwardRef b n) coefs.forward.offsets n
      · obtain ⟨yd2, hok2, -, -⟩ :=
          addBands_okOf y dim 0 (b : ℤ) (by omega) (by omega) (by omega)
            (coefs.forward.coefficients.zip coefs.forward.offsets) yd1
            (by
              intro p hp
              obtain ⟨w, o⟩ := p
              have h2 := hF2 o (List.of_mem_zip hp).2
              simp only [forwardRef] at h2
              omega)
        by_cases hB2 : windowsOK (backwardRef b n) coefs.backward.offsets n
        · rcases hbad with hx | hx | hx <;> contradiction
        · simp only [diff, centerRef, forwardRef, backwardRef, hbdef, hndef]
          rw [shiftAll_okL _ _ _ _ hC, ok_bind]
          simp only [zip_map_slices]
          rw [hok1, ok_bind, shiftAll_okL _ _ _ _ hF2, ok_bind]
          simp only [zip_map_slices]
          rw [hok2, ok_bind, shiftAll_errL _ _ _ _ hB2, error_bind]
      · simp only [diff, centerRef, forwardRef, backwardRef, hbdef, hndef]
        rw [shiftAll_okL _ _ _ _ hC, ok_bind]
        simp only [zip_map_slices]
        rw [hok1, ok_bind, shiftAll_errL _ _ _ _ hF2, error_bind]
    · simp only [diff, centerRef, forwardRef, backwardRef, hbdef, hndef]
      rw [shiftAll_errL _ _ _ _ hC, error_bind]
  · rintro ⟨hC, hF2, hB2, hh⟩
    obtain ⟨r, hok, -, -⟩ := diff_okOf y h deriv dim coefs hb hC hF2 hB2 hh
    exact ⟨r, hok⟩

/-- Witness for C6 amended at a concrete input: the half-width-1 records
on a three-point field. -/
theorem claim6_witness :
    2 * (coefsU.center.coefficients.length / 2) ≤ extent fieldU 0 ∧
      (((¬ windowsOK (centerRef (coefsU.center.coefficients.length / 2) (extent fieldU 0))
          coefsU.center.offsets (extent fieldU 0) ∨
        ¬ windowsOK (forwardRef (coefsU.center.coefficients.length / 2) (extent fieldU 0))
          coefsU.forward.offsets (extent fieldU 0) ∨
        ¬ windowsOK (backwardRef (coefsU.center.coefficients.length / 2) (extent fieldU 0))
          coefsU.backward.offsets (extent fieldU 0)) →
        diff fieldU 1 2 0 coefsU = .error .indexError) ∧
      ((windowsOK (centerRef (coefsU.center.coefficients.length / 2) (extent fieldU 0))
          coefsU.center.offsets (extent fieldU 0) ∧
        windowsOK (forwardRef (coefsU.center.coefficients.length / 2) (extent fieldU 0))
          coefsU.forward.offsets (extent fieldU 0) ∧
        windowsOK (backwardRef (coefsU.center.coefficients.length / 2) (extent fieldU 0))
          coefsU.backward.offsets (extent fieldU 0) ∧ (1 : ℚ) ≠ 0) →
        ∃ r, diff fieldU 1 2 0 coefsU = .ok r)) :=
  ⟨by decide, claim6_bounds fieldU 1 2 0 coefsU (by decide)⟩

end Findiff
